import Mathlib

/-!
Shallow embedding of the CLEAR scene generator
(`scene_generation/scene_generator.py`): the sound catalog interface
(`Primary_sounds`), the two constraint validators, the candidate drawing
loop (`next_id`), the iterative depth-first tree search
(`_generate_scenes_idx`) and the train/val/test partitioner (`generate`).
Machine integers are modelled as `Nat`/`Int`; the global `random` module is
modelled as a stream of draws `Nat → Nat`; the retry loop inside `next_id`
and the outer `while` loop are given explicit fuel.
-/

namespace CLEAR

/-- The read-only part of `Primary_sounds` that the search consumes: the
`instrument_family` attribute of each primary sound, indexed by id. -/
structure Catalog where
  families : List String
deriving DecidableEq

/-- Number of sounds (`self.nb_sounds = len(self.definition)`). -/
def Catalog.nbSounds (c : Catalog) : Nat := c.families.length

/-- Number of distinct instrument families (`self.nb_families`). -/
def Catalog.nbFamilies (c : Catalog) : Nat := c.families.dedup.length

/-- The instrument family of each id in `id_list`
(`self.definition[id]['instrument_family']`). -/
def familiesOf (c : Catalog) (ids : List Nat) : List String :=
  ids.map (fun i => c.families.getD i "")

/-- Occurrence count of family `f` in the id list: the value stored in the
`count` dictionary built by `Primary_sounds.ids_to_families_count`. -/
def famCount (c : Catalog) (ids : List Nat) (f : String) : Nat :=
  (familiesOf c ids).count f

/-- Keys of the `count` dictionary returned by `ids_to_families_count`:
the families occurring in `id_list`, followed by every other catalog family
(inserted with count 0 by the `empty_families` loop). -/
def famKeys (c : Catalog) (ids : List Nat) : List String :=
  (familiesOf c ids).dedup ++
    c.families.dedup.filter (fun f => decide (f ∉ familiesOf c ids))

/-- The `non_empty_families_count` component returned by
`ids_to_families_count`: the number of distinct families in `id_list`. -/
def nonEmptyFamiliesCount (c : Catalog) (ids : List Nat) : Nat :=
  (familiesOf c ids).dedup.length

/-- The values of the `count` dictionary, in key order. -/
def famCountValues (c : Catalog) (ids : List Nat) : List Nat :=
  (famKeys c ids).map (famCount c ids)

/-- The constraint set stored in `Scene_generator.__init__`. -/
structure Constraints where
  min_nb_families : Nat
  min_objects_per_family : Nat
  min_nb_families_subject : Nat
deriving DecidableEq

/-- The counting loop of `Scene_generator.validate_final`: walk the family
counts, increment when a count meets `min_objects_per_family`, break as soon
as the accumulator reaches `min_nb_families_subject_to_min_objects_per_family`. -/
def nbFamiliesMeetLoop (minObj thresh : Nat) : List Nat → Nat → Nat
  | [], acc => acc
  | cnt :: rest, acc =>
    let acc2 := if minObj ≤ cnt then acc + 1 else acc
    if thresh ≤ acc2 then acc2 else nbFamiliesMeetLoop minObj thresh rest acc2

/-- `Scene_generator.validate_final`: reject when the number of non-empty
families is below `min_nb_families`, then reject when fewer than
`min_nb_families_subject_to_min_objects_per_family` families reach
`min_objects_per_family` objects. -/
def validate_final (cst : Constraints) (c : Catalog) (state : List Nat) : Bool :=
  if nonEmptyFamiliesCount c state < cst.min_nb_families then false
  else if nbFamiliesMeetLoop cst.min_objects_per_family cst.min_nb_families_subject
      (famCountValues c state) 0 < cst.min_nb_families_subject then false
  else true

/-- `Scene_generator.validate_intermediate` (diagnostic `stats` counters
stripped): `nb_level_to_go = nb_objects_per_scene - current_level - 1`; prune
when the missing family count exceeds the levels to go, when the number of
families still below `min_objects_per_family` exceeds the levels to go, or
when that number times `min_objects_per_family` exceeds the levels to go. -/
def validate_intermediate (cst : Constraints) (c : Catalog) (L : Nat)
    (state : List Nat) (current_level : Nat) : Bool :=
  let nb_level_to_go : Int := (L : Int) - (current_level : Int) - 1
  let current_nb_families := nonEmptyFamiliesCount c state
  if current_nb_families < cst.min_nb_families ∧
      nb_level_to_go < (cst.min_nb_families : Int) - (current_nb_families : Int) then
    false
  else
    let nb_valid := (famCountValues c state).countP
      (fun cnt => decide (cst.min_objects_per_family ≤ cnt))
    let nb_missing : Int := (cst.min_nb_families_subject : Int) - (nb_valid : Int)
    if nb_level_to_go < nb_missing then false
    else if nb_level_to_go < nb_missing * (cst.min_objects_per_family : Int) then false
    else true

/-- One call to `random.randint(0, self.nb_sounds - 1)`, modelled as reading
position `k` of the seeded draw stream `s`. -/
def draw (c : Catalog) (s : Nat → Nat) (k : Nat) : Nat :=
  s k % c.nbSounds

/-- `Primary_sounds.next_id`: draw, then redraw while the draw hits
`state + siblings`. The Python `while` loop is given explicit fuel; `none`
means the retry loop is still running after `fuel` draws. On success, returns
the chosen id together with the next stream position. -/
def nextIdFuel (c : Catalog) (s : Nat → Nat) :
    Nat → Nat → List Nat → List Nat → Option (Nat × Nat)
  | 0, _, _, _ => none
  | fuel + 1, k, state, siblings =>
    let g := draw c s k
    if g ∈ state ++ siblings then nextIdFuel c s fuel (k + 1) state siblings
    else some (g, k + 1)

/-- The data of a tree `Node` that the traversal still reads after creation:
its chosen sound id (`-1` for the virtual root) and the ids of the children
explored so far (`get_childs_ids`). The parent back-reference becomes the
ancestor list of the zipper below. -/
structure Frame where
  soundId : Int
  childIds : List Nat
deriving DecidableEq

/-- How a run of `_generate_scenes_idx` can stand: still looping, halted
because the whole tree was instantiated (`next_node is None`), halted by the
`nb_to_generate` cap, stuck inside the `next_id` retry loop (the Python code
would spin forever), or crashed on a Python exception (`state.pop()` on an
empty list or a `None` dereference, both reachable only for degenerate
configurations). -/
inductive Status
  | running
  | doneRoot
  | doneCap
  | stuck
  | crashed
deriving DecidableEq

/-- The loop state of `_generate_scenes_idx`: the current node, its chain of
ancestors (parent first — the `parent` pointers), the `state` id list, the
accumulated `generated_scenes`, the `start_index` counter, the position in
the random stream, and the control status. -/
structure SearchSt where
  cur : Frame
  ancs : List Frame
  state : List Nat
  scenes : List (List Nat)
  startIndex : Nat
  rngPos : Nat
  status : Status
deriving DecidableEq

/-- Configuration of a generation run: `nb_objects_per_scene`,
`nb_tree_branch`, the constraint set and the optional `nb_to_generate` cap. -/
structure GenConfig where
  L : Nat
  W : Nat
  cst : Constraints
  cap : Option Nat
deriving DecidableEq

/-- Result of the inner `while len(next_node.childs) >= nb_tree_branch`
climbing loop run after a leaf: reached above the root (`done`), raised
(`crash`, a `state.pop()` on an empty list), or stopped at a node with a
free child slot. -/
inductive ClimbRes
  | done
  | crash
  | ok (cur : Frame) (ancs : List Frame) (state : List Nat)
deriving DecidableEq

/-- The climbing loop at the bottom of the tree: while the node is full, move
to the parent (halting the search if the parent is `None`) and pop the state. -/
def climb (W : Nat) : List Frame → Frame → List Nat → ClimbRes
  | [], f, state =>
    if W ≤ f.childIds.length then ClimbRes.done
    else ClimbRes.ok f [] state
  | p :: rest, f, state =>
    if W ≤ f.childIds.length then
      match state with
      | [] => ClimbRes.crash
      | _ :: _ => climb W rest p state.dropLast
    else ClimbRes.ok f (p :: rest) state

/-- The descend move: `next_id`, `state.append`, `add_child`, then
`validate_intermediate` on the child level; on failure stay at the current
node with the slot consumed and the state popped. -/
def expandStep (cfg : GenConfig) (c : Catalog) (s : Nat → Nat) (innerFuel : Nat)
    (st : SearchSt) : SearchSt :=
  match nextIdFuel c s innerFuel st.rngPos st.state st.cur.childIds with
  | none => { st with status := Status.stuck }
  | some (id, k) =>
    let state2 := st.state ++ [id]
    let cur2 : Frame := { st.cur with childIds := st.cur.childIds ++ [id] }
    if validate_intermediate cfg.cst c cfg.L state2 st.ancs.length then
      { st with cur := ⟨(id : Int), []⟩, ancs := cur2 :: st.ancs,
                state := state2, rngPos := k }
    else
      { st with cur := cur2,
                state := if 0 < state2.length then state2.dropLast else state2,
                rngPos := k }

/-- The go-up move taken at an interior node whose child slots are full:
move to the parent, halting if the parent is `None`, popping the state
otherwise (the pop is guarded by `len(state) > 0` in the source). -/
def goUpStep (st : SearchSt) : SearchSt :=
  match st.ancs with
  | [] => { st with status := Status.doneRoot }
  | p :: rest =>
    { st with cur := p, ancs := rest,
              state := if 0 < st.state.length then st.state.dropLast else st.state }

/-- Materialize a scene: `generated_scenes.append(list(state))` and
`start_index += 1`. -/
def emitState (st : SearchSt) : SearchSt :=
  { st with scenes := st.scenes ++ [st.state], startIndex := st.startIndex + 1 }

/-- The backtracking run after a leaf: `next_node = current_node.parent`,
`state.pop()` and the climbing loop. A missing parent or an empty state is a
Python exception. -/
def leafBacktrack (W : Nat) (st : SearchSt) : SearchSt :=
  match st.ancs with
  | [] => { st with status := Status.crashed }
  | p :: rest =>
    match st.state with
    | [] => { st with status := Status.crashed }
    | _ :: _ =>
      match climb W rest p st.state.dropLast with
      | ClimbRes.done => { st with status := Status.doneRoot }
      | ClimbRes.crash => { st with status := Status.crashed }
      | ClimbRes.ok f2 ancs2 state2 =>
        { st with cur := f2, ancs := ancs2, state := state2 }

/-- The leaf handling of `_generate_scenes_idx`: run `validate_final`; when it
passes, halt if the `nb_to_generate` cap is set (non-`None`, non-zero — the
Python truthiness test) and `start_index` already reached it, otherwise emit;
in every surviving case backtrack. -/
def leafStep (cfg : GenConfig) (c : Catalog) (st : SearchSt) : SearchSt :=
  if validate_final cfg.cst c st.state then
    match cfg.cap with
    | some n =>
      if n ≠ 0 ∧ n ≤ st.startIndex then { st with status := Status.doneCap }
      else leafBacktrack cfg.W (emitState st)
    | none => leafBacktrack cfg.W (emitState st)
  else leafBacktrack cfg.W st

/-- One iteration of the `while continue_work` loop: interior nodes descend or
go up depending on the free child slots, leaves emit and backtrack. The level
comparison `current_node.level < nb_objects_per_scene - 1` becomes
`ancs.length < L` since a node with `k` ancestors has level `k - 1`. -/
def step (cfg : GenConfig) (c : Catalog) (s : Nat → Nat) (innerFuel : Nat)
    (st : SearchSt) : SearchSt :=
  match st.status with
  | Status.running =>
    if st.ancs.length < cfg.L then
      if st.cur.childIds.length < cfg.W then expandStep cfg c s innerFuel st
      else goUpStep st
    else leafStep cfg c st
  | _ => st

/-- Iterate the loop body `fuel` times (the Python loop runs until a halt;
every finite prefix of that run is reached at some fuel). -/
def runAux (cfg : GenConfig) (c : Catalog) (s : Nat → Nat) (innerFuel : Nat) :
    Nat → SearchSt → SearchSt
  | 0, st => st
  | fuel + 1, st => runAux cfg c s innerFuel fuel (step cfg c s innerFuel st)

/-- The loop state on entry of `_generate_scenes_idx`: virtual root node of
level `-1`, empty state, no scenes, `start_index` as passed. -/
def initSt (start0 : Nat) : SearchSt :=
  { cur := ⟨-1, []⟩, ancs := [], state := [], scenes := [],
    startIndex := start0, rngPos := 0, status := Status.running }

/-- The id sequences returned by a run of `_generate_scenes_idx`. -/
def runScenes (cfg : GenConfig) (c : Catalog) (s : Nat → Nat)
    (innerFuel fuel start0 : Nat) : List (List Nat) :=
  (runAux cfg c s innerFuel fuel (initSt start0)).scenes

/-! Lemmas about the family histogram and the final validator. -/

theorem nbFamiliesMeetLoop_ge_iff (minObj thresh : Nat) (values : List Nat) (acc : Nat) :
    thresh ≤ nbFamiliesMeetLoop minObj thresh values acc ↔
    thresh ≤ acc + values.countP (fun cnt => decide (minObj ≤ cnt)) := by
  induction values generalizing acc with
  | nil => simp [nbFamiliesMeetLoop]
  | cons cnt rest ih =>
    by_cases hc : minObj ≤ cnt
    · rw [List.countP_cons_of_pos _ _ (by simpa using hc)]
      simp only [nbFamiliesMeetLoop, hc, if_true]
      by_cases hb : thresh ≤ acc + 1
      · rw [if_pos hb]; omega
      · rw [if_neg hb, ih]; omega
    · rw [List.countP_cons_of_neg _ _ (by simpa using hc)]
      simp only [nbFamiliesMeetLoop, hc, if_false]
      by_cases hb : thresh ≤ acc
      · rw [if_pos hb]; omega
      · rw [if_neg hb, ih]

theorem famCountValues_countP (c : Catalog) (ids : List Nat) (p : Nat → Bool) :
    (famCountValues c ids).countP p =
    (famKeys c ids).countP (fun f => p (famCount c ids f)) := by
  rw [famCountValues, List.countP_map]
  rfl

theorem validate_final_true_iff (cst : Constraints) (c : Catalog) (state : List Nat) :
    validate_final cst c state = true ↔
    (cst.min_nb_families ≤ nonEmptyFamiliesCount c state ∧
      cst.min_nb_families_subject ≤ (famKeys c state).countP
        (fun f => decide (cst.min_objects_per_family ≤ famCount c state f))) := by
  rw [validate_final]
  have hv := famCountValues_countP c state
    (fun cnt => decide (cst.min_objects_per_family ≤ cnt))
  have hloop := nbFamiliesMeetLoop_ge_iff cst.min_objects_per_family
    cst.min_nb_families_subject (famCountValues c state) 0
  rw [← hv]
  by_cases h1 : nonEmptyFamiliesCount c state < cst.min_nb_families
  · simp only [h1, if_true]
    constructor
    · intro h; simp at h
    · intro h; omega
  · simp only [h1, if_false]
    by_cases h2 : nbFamiliesMeetLoop cst.min_objects_per_family
        cst.min_nb_families_subject (famCountValues c state) 0 <
        cst.min_nb_families_subject
    · simp only [h2, if_true]
      constructor
      · intro h; simp at h
      · rintro ⟨-, hb⟩
        have := hloop.mpr (by omega)
        omega
    · simp only [h2, if_false]
      constructor
      · intro _
        have := hloop.mp (by omega)
        exact ⟨by omega, by omega⟩
      · intro _; trivial

theorem familiesOf_subset (c : Catalog) (ids : List Nat)
    (h : ∀ i ∈ ids, i < c.nbSounds) :
    ∀ f ∈ familiesOf c ids, f ∈ c.families := by
  intro f hf
  simp only [familiesOf, List.mem_map] at hf
  obtain ⟨i, hi, rfl⟩ := hf
  have hlt : i < c.families.length := h i hi
  rw [List.getD_eq_getElem?_getD, List.getElem?_eq_getElem hlt]
  exact List.getElem_mem hlt

theorem famKeys_nodup (c : Catalog) (ids : List Nat) : (famKeys c ids).Nodup := by
  refine List.Nodup.append (List.nodup_dedup _) ((List.nodup_dedup _).filter _) ?_
  intro f hf hg
  rw [List.mem_dedup] at hf
  rw [List.mem_filter] at hg
  exact absurd hf (by simpa using hg.2)

theorem mem_famKeys (c : Catalog) (ids : List Nat) (f : String) :
    f ∈ famKeys c ids ↔ f ∈ familiesOf c ids ∨ f ∈ c.families := by
  simp only [famKeys, List.mem_append, List.mem_dedup, List.mem_filter,
    decide_eq_true_eq]
  by_cases h : f ∈ familiesOf c ids <;> simp [h]

theorem famKeys_perm (c : Catalog) (ids : List Nat)
    (h : ∀ i ∈ ids, i < c.nbSounds) :
    (famKeys c ids).Perm c.families.dedup := by
  refine List.perm_of_nodup_nodup_toFinset_eq (famKeys_nodup c ids)
    (List.nodup_dedup _) ?_
  ext f
  simp only [List.mem_toFinset, mem_famKeys, List.mem_dedup]
  constructor
  · rintro (hf | hf)
    · exact familiesOf_subset c ids h f hf
    · exact hf
  · intro hf; exact Or.inr hf

theorem famKeys_length (c : Catalog) (ids : List Nat)
    (h : ∀ i ∈ ids, i < c.nbSounds) :
    (famKeys c ids).length = c.nbFamilies :=
  (famKeys_perm c ids h).length_eq

theorem famCount_eq_zero (c : Catalog) (ids : List Nat) (f : String)
    (h : f ∉ familiesOf c ids) : famCount c ids f = 0 :=
  List.count_eq_zero.mpr h

theorem meetCount_of_zero (c : Catalog) (ids : List Nat) :
    (famKeys c ids).countP (fun f => decide (0 ≤ famCount c ids f)) =
    (famKeys c ids).length := by
  apply List.countP_eq_length.mpr
  intro f _
  simp

theorem meetCount_of_one (c : Catalog) (ids : List Nat) :
    (famKeys c ids).countP (fun f => decide (1 ≤ famCount c ids f)) =
    nonEmptyFamiliesCount c ids := by
  rw [famKeys, List.countP_append]
  have h1 : ((familiesOf c ids).dedup.countP
      (fun f => decide (1 ≤ famCount c ids f))) = (familiesOf c ids).dedup.length := by
    apply List.countP_eq_length.mpr
    intro f hf
    rw [List.mem_dedup] at hf
    simp only [decide_eq_true_eq, famCount]
    have := List.count_pos_iff.mpr hf
    omega
  have h2 : ((c.families.dedup.filter
      (fun f => decide (f ∉ familiesOf c ids))).countP
      (fun f => decide (1 ≤ famCount c ids f))) = 0 := by
    apply List.countP_eq_zero.mpr
    intro f hf
    rw [List.mem_filter] at hf
    have : f ∉ familiesOf c ids := by simpa using hf.2
    simp [famCount_eq_zero c ids f this]
  rw [h1, h2]
  rfl

theorem nonEmpty_append_le (c : Catalog) (s e : List Nat) :
    nonEmptyFamiliesCount c (s ++ e) ≤ nonEmptyFamiliesCount c s + e.length := by
  have hmap : familiesOf c (s ++ e) = familiesOf c s ++ familiesOf c e := by
    simp [familiesOf]
  rw [nonEmptyFamiliesCount, hmap, ← List.card_toFinset, List.toFinset_append]
  calc ((familiesOf c s).toFinset ∪ (familiesOf c e).toFinset).card
      ≤ (familiesOf c s).toFinset.card + (familiesOf c e).toFinset.card :=
        Finset.card_union_le _ _
    _ ≤ (familiesOf c s).dedup.length + e.length := by
        have h1 := List.card_toFinset (familiesOf c s)
        have h2 := List.toFinset_card_le (familiesOf c e)
        have h3 : (familiesOf c e).length = e.length := by simp [familiesOf]
        omega

theorem nonEmpty_le_nbFamilies (c : Catalog) (ids : List Nat)
    (h : ∀ i ∈ ids, i < c.nbSounds) :
    nonEmptyFamiliesCount c ids ≤ c.nbFamilies := by
  rw [nonEmptyFamiliesCount, ← List.card_toFinset, Catalog.nbFamilies,
    ← List.card_toFinset]
  apply Finset.card_le_card
  intro f hf
  rw [List.mem_toFinset] at hf ⊢
  exact familiesOf_subset c ids h f hf

theorem validate_final_false_of_families (cst : Constraints) (c : Catalog)
    (state : List Nat)
    (h : nonEmptyFamiliesCount c state < cst.min_nb_families) :
    validate_final cst c state = false := by
  rw [validate_final, if_pos h]

theorem validate_final_false_of_meet (cst : Constraints) (c : Catalog)
    (state : List Nat)
    (h : (famKeys c state).countP
        (fun f => decide (cst.min_objects_per_family ≤ famCount c state f)) <
      cst.min_nb_families_subject) :
    validate_final cst c state = false := by
  cases hv : validate_final cst c state
  · rfl
  · have := (validate_final_true_iff cst c state).mp hv
    omega

/-- The final acceptance rule as the spec words it: at least `min_families`
distinct non-empty families, and at least `min_families_meeting_quota`
catalog families whose tally in the state reaches `min_objects_per_family`. -/
def validate_final_spec (cst : Constraints) (c : Catalog) (state : List Nat) : Prop :=
  cst.min_nb_families ≤ nonEmptyFamiliesCount c state ∧
  cst.min_nb_families_subject ≤
    c.families.dedup.countP
      (fun f => decide (cst.min_objects_per_family ≤ famCount c state f))

/-- C2: for every complete state over valid catalog ids, `validate_final`
returns `True` iff (a) the number of distinct families occurring in the state
is at least `min_nb_families` and (b) the number of families whose occurrence
count reaches `min_objects_per_family` is at least
`min_nb_families_subject_to_min_objects_per_family`. -/
theorem validate_final_matches_spec (cst : Constraints) (c : Catalog)
    (state : List Nat) (hstate : ∀ i ∈ state, i < c.nbSounds) :
    validate_final cst c state = true ↔ validate_final_spec cst c state := by
  rw [validate_final_true_iff, validate_final_spec]
  have hperm := famKeys_perm c state hstate
  rw [List.Perm.countP_eq _ hperm]

/-- Witness for C2 on a concrete two-family catalog and state. -/
theorem validate_final_matches_spec_witness :
    validate_final ⟨1, 1, 1⟩ ⟨["A", "B"]⟩ [0] = true ↔
      validate_final_spec ⟨1, 1, 1⟩ ⟨["A", "B"]⟩ [0] :=
  validate_final_matches_spec ⟨1, 1, 1⟩ ⟨["A", "B"]⟩ [0] (by decide)

/-- C10: the family histogram built by `ids_to_families_count` has an entry
for every catalog family, with count 0 for families absent from the state;
hence with `min_objects_per_family = 0` the quota clause of final validation
passes for every valid state as soon as the catalog has at least
`min_nb_families_subject_to_min_objects_per_family` families. -/
theorem histogram_full_and_zero_quota_passes (cst : Constraints) (c : Catalog)
    (ids : List Nat)
    (hvalid : ∀ i ∈ ids, i < c.nbSounds)
    (hzero : cst.min_objects_per_family = 0)
    (hfam : cst.min_nb_families_subject ≤ c.nbFamilies) :
    (∀ f ∈ c.families, f ∈ famKeys c ids ∧
      (f ∉ familiesOf c ids → famCount c ids f = 0)) ∧
    cst.min_nb_families_subject ≤
      nbFamiliesMeetLoop cst.min_objects_per_family cst.min_nb_families_subject
        (famCountValues c ids) 0 := by
  constructor
  · intro f hf
    exact ⟨(mem_famKeys c ids f).mpr (Or.inr hf), famCount_eq_zero c ids f⟩
  · rw [nbFamiliesMeetLoop_ge_iff]
    have hv := famCountValues_countP c ids
      (fun cnt => decide (cst.min_objects_per_family ≤ cnt))
    rw [hv]
    simp only [hzero]
    rw [meetCount_of_zero, famKeys_length c ids hvalid]
    omega

/-- Witness for C10: a scene of two "A" sounds against a three-family catalog. -/
theorem histogram_full_and_zero_quota_passes_witness :
    (∀ f ∈ (⟨["A", "A", "B", "C"]⟩ : Catalog).families,
      f ∈ famKeys ⟨["A", "A", "B", "C"]⟩ [0, 1] ∧
      (f ∉ familiesOf ⟨["A", "A", "B", "C"]⟩ [0, 1] →
        famCount ⟨["A", "A", "B", "C"]⟩ [0, 1] f = 0)) ∧
    (3 : Nat) ≤ nbFamiliesMeetLoop 0 3 (famCountValues ⟨["A", "A", "B", "C"]⟩ [0, 1]) 0 :=
  histogram_full_and_zero_quota_passes ⟨2, 0, 3⟩ ⟨["A", "A", "B", "C"]⟩ [0, 1]
    (by decide) (by decide) (by decide)

/-- Counterexample for C3 as stated: at `scene_length = 4`, constraints
`{min_nb_families = 2, min_objects_per_family = 2, min_nb_families_subject = 2}`,
the partial state `[0, 2]` (one "A", one "B") at depth 1 is rejected by
`validate_intermediate` (its product check `2 * 2 > 2` fires), yet the
extension `[1, 3]` of the remaining `4 - 1 - 1` ids makes `validate_final`
accept: the pruning rejects a branch that could still reach a valid scene. -/
theorem intermediate_overprunes_counterexample :
    validate_intermediate ⟨2, 2, 2⟩ ⟨["A", "A", "B", "B"]⟩ 4 [0, 2] 1 = false ∧
    ([1, 3] : List Nat).length = 4 - 1 - 1 ∧
    validate_final ⟨2, 2, 2⟩ ⟨["A", "A", "B", "B"]⟩ ([0, 2] ++ [1, 3]) = true := by
  refine ⟨by decide, by decide, by decide⟩

/-- C3 (amended): the intermediate check is a sound feasibility bound
whenever `min_objects_per_family ≤ 1`; the third (product) check can
over-prune for `min_objects_per_family ≥ 2`, as the counterexample shows.
Under that bound, a partial state rejected at depth `d` admits no extension
by the remaining `scene_length - d - 1` ids that final validation accepts. -/
theorem validate_intermediate_sound (cst : Constraints) (c : Catalog) (L : Nat)
    (state ext : List Nat) (d : Nat)
    (hobj : cst.min_objects_per_family ≤ 1)
    (hdL : d < L)
    (hext : ext.length = L - d - 1)
    (hstate : ∀ i ∈ state, i < c.nbSounds)
    (hexti : ∀ i ∈ ext, i < c.nbSounds)
    (hfail : validate_intermediate cst c L state d = false) :
    validate_final cst c (state ++ ext) = false := by
  have hfull : ∀ i ∈ state ++ ext, i < c.nbSounds := by
    intro i hi
    rcases List.mem_append.mp hi with h | h
    · exact hstate i h
    · exact hexti i h
  have hgrow := nonEmpty_append_le c state ext
  simp only [validate_intermediate] at hfail
  split_ifs at hfail with h1 h2 h3
  · -- missing families exceed the levels to go
    apply validate_final_false_of_families
    obtain ⟨hlt, hmiss⟩ := h1
    omega
  · -- families still below the quota exceed the levels to go
    apply validate_final_false_of_meet
    have hv := famCountValues_countP c state
      (fun cnt => decide (cst.min_objects_per_family ≤ cnt))
    rw [hv] at h2
    rcases Nat.le_one_iff_eq_zero_or_eq_one.mp hobj with h0 | h01
    · simp only [h0] at h2 ⊢
      rw [meetCount_of_zero, famKeys_length c state hstate] at h2
      rw [meetCount_of_zero, famKeys_length c (state ++ ext) hfull]
      omega
    · simp only [h01] at h2 ⊢
      rw [meetCount_of_one] at h2
      rw [meetCount_of_one]
      omega
  · -- the product check: with the quota at most 1 it reduces to the second
    apply validate_final_false_of_meet
    have hv := famCountValues_countP c state
      (fun cnt => decide (cst.min_objects_per_family ≤ cnt))
    rw [hv] at h3
    rcases Nat.le_one_iff_eq_zero_or_eq_one.mp hobj with h0 | h01
    · rw [h0] at h3
      simp only [Nat.cast_zero, mul_zero] at h3
      omega
    · rw [h01] at h3
      simp only [Nat.cast_one, mul_one] at h3
      simp only [h01] at h3 ⊢
      rw [meetCount_of_one] at h3
      rw [meetCount_of_one]
      omega

/-- Witness for the amended C3: a two-"A" state at depth 1 of a length-2
scene is pruned (missing family) and its empty extension indeed fails final
validation. -/
theorem validate_intermediate_sound_witness :
    validate_final ⟨2, 1, 2⟩ ⟨["A", "A", "B"]⟩ ([0, 1] ++ []) = false :=
  validate_intermediate_sound ⟨2, 1, 2⟩ ⟨["A", "A", "B"]⟩ 2 [0, 1] [] 1
    (by decide) (by decide) (by decide) (by decide) (by decide) (by decide)

/-! Lemmas about the `next_id` retry loop. -/

theorem nextIdFuel_none_of_covered (c : Catalog) (s : Nat → Nat)
    (fuel k : Nat) (state sib : List Nat)
    (hcov : ∀ i, i < c.nbSounds → i ∈ state ∨ i ∈ sib)
    (hpos : 0 < c.nbSounds) :
    nextIdFuel c s fuel k state sib = none := by
  induction fuel generalizing k with
  | zero => rfl
  | succ n ih =>
    rw [nextIdFuel]
    have hd : draw c s k < c.nbSounds := Nat.mod_lt _ hpos
    rw [if_pos (List.mem_append.mpr (hcov _ hd))]
    exact ih (k + 1)

theorem nextIdFuel_some_spec (c : Catalog) (s : Nat → Nat) :
    ∀ (fuel k : Nat) (state sib : List Nat) (id k2 : Nat),
      nextIdFuel c s fuel k state sib = some (id, k2) →
      id ∉ state ∧ id ∉ sib ∧ (0 < c.nbSounds → id < c.nbSounds) := by
  intro fuel
  induction fuel with
  | zero => intro k state sib id k2 h; exact absurd h (by simp [nextIdFuel])
  | succ n ih =>
    intro k state sib id k2 h
    rw [nextIdFuel] at h
    by_cases hmem : draw c s k ∈ state ++ sib
    · rw [if_pos hmem] at h
      exact ih (k + 1) state sib id k2 h
    · rw [if_neg hmem] at h
      have hid : id = draw c s k := by
        cases h; rfl
      subst hid
      rw [List.mem_append] at hmem
      push_neg at hmem
      exact ⟨hmem.1, hmem.2, fun hpos => Nat.mod_lt _ hpos⟩

theorem nextIdFuel_isSome_of_hit (c : Catalog) (s : Nat → Nat) :
    ∀ (fuel k : Nat) (state sib : List Nat) (j : Nat),
      k ≤ j → j < k + fuel → draw c s j ∉ state ++ sib →
      (nextIdFuel c s fuel k state sib).isSome = true := by
  intro fuel
  induction fuel with
  | zero => intro k state sib j h1 h2 _; omega
  | succ n ih =>
    intro k state sib j h1 h2 hj
    rw [nextIdFuel]
    by_cases hmem : draw c s k ∈ state ++ sib
    · rw [if_pos hmem]
      have hne : k ≠ j := by
        intro he; rw [he] at hmem; exact hj hmem
      exact ih (k + 1) state sib j (by omega) (by omega) hj
    · rw [if_neg hmem]
      rfl

/-- Counterexample for C4 as stated: with a one-sound catalog and the state
already holding id 0, the retry loop of `next_id` never returns for any fuel
and any stream position — the code loops indefinitely instead of failing
with an `ExhaustedCandidates` error (no such error exists in the source). -/
theorem next_id_loops_counterexample :
    ¬ ∃ fuel k, (nextIdFuel ⟨["A"]⟩ (fun _ => 0) fuel k [0] []).isSome = true := by
  rintro ⟨fuel, k, h⟩
  rw [nextIdFuel_none_of_covered ⟨["A"]⟩ (fun _ => 0) fuel k [0] []
    (by decide) (by decide)] at h
  simp at h

/-- C4 (amended): when the eligible set is empty the retry loop of `next_id`
never returns (it does not fail with an error); when `next_id` does return, the
returned id lies outside `state ∪ siblings` (and inside the catalog range);
and the loop returns as soon as some draw within the fuel window is eligible. -/
theorem next_id_behaviour (c : Catalog) (s : Nat → Nat) (fuel k : Nat)
    (state sib : List Nat) :
    ((∀ i, i < c.nbSounds → i ∈ state ∨ i ∈ sib) → 0 < c.nbSounds →
      nextIdFuel c s fuel k state sib = none) ∧
    (∀ id k2, nextIdFuel c s fuel k state sib = some (id, k2) →
      id ∉ state ∧ id ∉ sib ∧ (0 < c.nbSounds → id < c.nbSounds)) ∧
    (∀ j, k ≤ j → j < k + fuel → draw c s j ∉ state ++ sib →
      (nextIdFuel c s fuel k state sib).isSome = true) :=
  ⟨fun hcov hpos => nextIdFuel_none_of_covered c s fuel k state sib hcov hpos,
   fun id k2 h => nextIdFuel_some_spec c s fuel k state sib id k2 h,
   fun j h1 h2 hj => nextIdFuel_isSome_of_hit c s fuel k state sib j h1 h2 hj⟩

/-- Witness for the amended C4: the covered one-sound catalog never returns;
an eligible draw on a two-sound catalog returns at once. -/
theorem next_id_behaviour_witness :
    nextIdFuel ⟨["A"]⟩ (fun _ => 0) 5 0 [0] [] = none ∧
    (nextIdFuel ⟨["A", "B"]⟩ (fun _ => 1) 5 0 [0] []).isSome = true :=
  ⟨(next_id_behaviour ⟨["A"]⟩ (fun _ => 0) 5 0 [0] []).1 (by decide) (by decide),
   (next_id_behaviour ⟨["A", "B"]⟩ (fun _ => 1) 5 0 [0] []).2.2 0 (by decide)
     (by decide) (by decide)⟩

/-! Invariants of the tree traversal. -/

/-- The invariant maintained by every iteration of `_generate_scenes_idx`:
the state is duplicate-free and tracks the depth of the current node, the
depth never exceeds the scene length, every explored node keeps at most
`nb_tree_branch` children, every accumulated scene is a complete
duplicate-free id sequence, state ids lie in the catalog range, and the
`start_index` counter tracks the emitted scenes and respects the cap. -/
structure Inv (cfg : GenConfig) (c : Catalog) (start0 : Nat) (st : SearchSt) : Prop where
  state_nodup : st.state.Nodup
  state_len : st.state.length = st.ancs.length
  depth_le : st.ancs.length ≤ cfg.L
  cur_w : st.cur.childIds.length ≤ cfg.W
  ancs_w : ∀ f ∈ st.ancs, f.childIds.length ≤ cfg.W
  scenes_ok : ∀ sc ∈ st.scenes, sc.length = cfg.L ∧ sc.Nodup
  state_lt : ∀ i ∈ st.state, 0 < c.nbSounds → i < c.nbSounds
  start_eq : st.startIndex = start0 + st.scenes.length
  cap_le : ∀ n, cfg.cap = some n → n ≠ 0 → st.startIndex ≤ max start0 n

theorem dropLast_append_singleton (l : List α) (a : α) : (l ++ [a]).dropLast = l := by
  simp

theorem climb_ok_inv (W : Nat) (c : Catalog) :
    ∀ (ancs : List Frame) (f : Frame) (state : List Nat) (f2 : Frame)
      (ancs2 : List Frame) (state2 : List Nat),
      climb W ancs f state = ClimbRes.ok f2 ancs2 state2 →
      state.length = ancs.length →
      state.Nodup →
      (∀ i ∈ state, 0 < c.nbSounds → i < c.nbSounds) →
      f.childIds.length ≤ W →
      (∀ g ∈ ancs, g.childIds.length ≤ W) →
      state2.length = ancs2.length ∧ state2.Nodup ∧
        (∀ i ∈ state2, 0 < c.nbSounds → i < c.nbSounds) ∧
        f2.childIds.length ≤ W ∧ (∀ g ∈ ancs2, g.childIds.length ≤ W) ∧
        ancs2.length ≤ ancs.length := by
  intro ancs
  induction ancs with
  | nil =>
    intro f state f2 ancs2 state2 hcl hlen hnd hlt hf _
    simp only [climb] at hcl
    by_cases hW : W ≤ f.childIds.length
    · rw [if_pos hW] at hcl
      exact absurd hcl (by simp)
    · rw [if_neg hW] at hcl
      cases hcl
      exact ⟨hlen, hnd, hlt, hf, by simp, le_refl _⟩
  | cons p rest ih =>
    intro f state f2 ancs2 state2 hcl hlen hnd hlt hf hall
    simp only [climb] at hcl
    by_cases hW : W ≤ f.childIds.length
    · rw [if_pos hW] at hcl
      cases state with
      | nil => exact absurd hcl (by simp)
      | cons x xs =>
        have hres := ih p (x :: xs).dropLast f2 ancs2 state2 hcl
          (by simp at hlen ⊢; omega)
          (List.Nodup.sublist (List.dropLast_sublist _) hnd)
          (fun i hi => hlt i (List.Sublist.mem hi (List.dropLast_sublist _)))
          (hall p (List.mem_cons_self p rest))
          (fun g hg => hall g (List.mem_cons_of_mem p hg))
        refine ⟨hres.1, hres.2.1, hres.2.2.1, hres.2.2.2.1, hres.2.2.2.2.1, ?_⟩
        have := hres.2.2.2.2.2
        simp only [List.length_cons]
        omega
    · rw [if_neg hW] at hcl
      cases hcl
      exact ⟨hlen, hnd, hlt, hf, hall, le_refl _⟩

theorem inv_leafBacktrack (cfg : GenConfig) (c : Catalog) (start0 : Nat)
    (st : SearchSt) (h : Inv cfg c start0 st) :
    Inv cfg c start0 (leafBacktrack cfg.W st) := by
  obtain ⟨cur, ancs, state, scenes, startIdx, rngPos, status⟩ := st
  rw [leafBacktrack]
  cases ancs with
  | nil =>
    exact ⟨h.state_nodup, h.state_len, h.depth_le, h.cur_w, h.ancs_w,
      h.scenes_ok, h.state_lt, h.start_eq, h.cap_le⟩
  | cons p rest =>
    cases state with
    | nil =>
      exact ⟨h.state_nodup, h.state_len, h.depth_le, h.cur_w, h.ancs_w,
        h.scenes_ok, h.state_lt, h.start_eq, h.cap_le⟩
    | cons x xs =>
      dsimp only
      rcases hcl : climb cfg.W rest p (x :: xs).dropLast with _ | _ | ⟨f2, ancs2, state2⟩
      · exact ⟨h.state_nodup, h.state_len, h.depth_le, h.cur_w, h.ancs_w,
          h.scenes_ok, h.state_lt, h.start_eq, h.cap_le⟩
      · exact ⟨h.state_nodup, h.state_len, h.depth_le, h.cur_w, h.ancs_w,
          h.scenes_ok, h.state_lt, h.start_eq, h.cap_le⟩
      · dsimp only
        have hlen : (x :: xs).length = (p :: rest).length := h.state_len
        have hres := climb_ok_inv cfg.W c rest p (x :: xs).dropLast f2 ancs2 state2
          hcl
          (by simp at hlen ⊢; omega)
          (List.Nodup.sublist (List.dropLast_sublist _) h.state_nodup)
          (fun i hi => h.state_lt i (List.Sublist.mem hi (List.dropLast_sublist _)))
          (h.ancs_w p (List.mem_cons_self p rest))
          (fun g hg => h.ancs_w g (List.mem_cons_of_mem p hg))
        refine ⟨hres.2.1, hres.1, ?_, hres.2.2.2.1, hres.2.2.2.2.1,
          h.scenes_ok, hres.2.2.1, h.start_eq, h.cap_le⟩
        show ancs2.length ≤ cfg.L
        have hd := h.depth_le
        have := hres.2.2.2.2.2
        simp only [List.length_cons] at hd
        omega

theorem inv_emitState (cfg : GenConfig) (c : Catalog) (start0 : Nat)
    (st : SearchSt) (h : Inv cfg c start0 st)
    (hL : st.state.length = cfg.L)
    (hcap : ∀ n, cfg.cap = some n → n ≠ 0 → st.startIndex < n) :
    Inv cfg c start0 (emitState st) := by
  refine ⟨h.state_nodup, h.state_len, h.depth_le, h.cur_w, h.ancs_w, ?_,
    h.state_lt, ?_, ?_⟩
  · intro sc hsc
    rcases List.mem_append.mp hsc with hm | hm
    · exact h.scenes_ok sc hm
    · rw [List.mem_singleton] at hm
      subst hm
      exact ⟨hL, h.state_nodup⟩
  · show st.startIndex + 1 = start0 + (st.scenes ++ [st.state]).length
    have := h.start_eq
    simp only [List.length_append, List.length_singleton]
    omega
  · intro n hn hn0
    show st.startIndex + 1 ≤ max start0 n
    have := hcap n hn hn0
    omega

theorem inv_expandStep (cfg : GenConfig) (c : Catalog) (s : Nat → Nat)
    (innerFuel start0 : Nat) (st : SearchSt) (h : Inv cfg c start0 st)
    (hL : st.ancs.length < cfg.L) (hW : st.cur.childIds.length < cfg.W) :
    Inv cfg c start0 (expandStep cfg c s innerFuel st) := by
  rw [expandStep]
  rcases hnext : nextIdFuel c s innerFuel st.rngPos st.state st.cur.childIds
    with _ | ⟨id, k⟩
  · exact ⟨h.state_nodup, h.state_len, h.depth_le, h.cur_w, h.ancs_w,
      h.scenes_ok, h.state_lt, h.start_eq, h.cap_le⟩
  · dsimp only
    have hspec := nextIdFuel_some_spec c s innerFuel st.rngPos st.state
      st.cur.childIds id k hnext
    by_cases hv : validate_intermediate cfg.cst c cfg.L (st.state ++ [id])
        st.ancs.length
    · rw [if_pos hv]
      refine ⟨?_, ?_, ?_, ?_, ?_, h.scenes_ok, ?_, h.start_eq, h.cap_le⟩
      · show (st.state ++ [id]).Nodup
        rw [List.nodup_append]
        refine ⟨h.state_nodup, List.nodup_singleton id, ?_⟩
        intro a ha hma
        rw [List.mem_singleton] at hma
        subst hma
        exact hspec.1 ha
      · show (st.state ++ [id]).length = _
        simp [h.state_len]
      · show st.ancs.length + 1 ≤ cfg.L
        omega
      · show ([] : List Nat).length ≤ cfg.W
        simp
      · intro f hf
        rcases List.mem_cons.mp hf with hm | hm
        · subst hm
          show (st.cur.childIds ++ [id]).length ≤ cfg.W
          simp only [List.length_append, List.length_singleton]
          omega
        · exact h.ancs_w f hm
      · intro i hi
        rcases List.mem_append.mp hi with hm | hm
        · exact h.state_lt i hm
        · rw [List.mem_singleton] at hm
          subst hm
          exact hspec.2.2
    · rw [if_neg hv]
      have hstq : (if 0 < (st.state ++ [id]).length then (st.state ++ [id]).dropLast
          else st.state ++ [id]) = st.state := by
        rw [if_pos (by simp), dropLast_append_singleton]
      rw [hstq]
      refine ⟨h.state_nodup, h.state_len, h.depth_le, ?_, h.ancs_w,
        h.scenes_ok, h.state_lt, h.start_eq, h.cap_le⟩
      show (st.cur.childIds ++ [id]).length ≤ cfg.W
      simp only [List.length_append, List.length_singleton]
      omega

theorem inv_goUpStep (cfg : GenConfig) (c : Catalog) (start0 : Nat)
    (st : SearchSt) (h : Inv cfg c start0 st) :
    Inv cfg c start0 (goUpStep st) := by
  obtain ⟨cur, ancs, state, scenes, startIdx, rngPos, status⟩ := st
  rw [goUpStep]
  cases ancs with
  | nil =>
    exact ⟨h.state_nodup, h.state_len, h.depth_le, h.cur_w, h.ancs_w,
      h.scenes_ok, h.state_lt, h.start_eq, h.cap_le⟩
  | cons p rest =>
    dsimp only
    have hlen : state.length = (p :: rest).length := h.state_len
    have hpos : 0 < state.length := by
      simp only [List.length_cons] at hlen
      omega
    rw [if_pos hpos]
    refine ⟨List.Nodup.sublist (List.dropLast_sublist _) h.state_nodup, ?_, ?_,
      h.ancs_w p (List.mem_cons_self p rest),
      fun g hg => h.ancs_w g (List.mem_cons_of_mem p hg),
      h.scenes_ok,
      fun i hi => h.state_lt i (List.Sublist.mem hi (List.dropLast_sublist _)),
      h.start_eq, h.cap_le⟩
    · show state.dropLast.length = rest.length
      simp only [List.length_dropLast]
      simp only [List.length_cons] at hlen
      omega
    · show rest.length ≤ cfg.L
      have hd := h.depth_le
      simp only [List.length_cons] at hd
      omega

theorem inv_leafStep (cfg : GenConfig) (c : Catalog) (start0 : Nat)
    (st : SearchSt) (h : Inv cfg c start0 st)
    (hL : ¬ st.ancs.length < cfg.L) :
    Inv cfg c start0 (leafStep cfg c st) := by
  have hlenL : st.state.length = cfg.L := by
    have h1 := h.depth_le
    have h2 := h.state_len
    omega
  rw [leafStep]
  by_cases hv : validate_final cfg.cst c st.state
  · rw [if_pos hv]
    rcases hcap : cfg.cap with _ | n
    · exact inv_leafBacktrack cfg c start0 _ (inv_emitState cfg c start0 st h hlenL
        (by intro m hm _; rw [hcap] at hm; cases hm))
    · dsimp only
      by_cases hstop : n ≠ 0 ∧ n ≤ st.startIndex
      · rw [if_pos hstop]
        exact ⟨h.state_nodup, h.state_len, h.depth_le, h.cur_w, h.ancs_w,
          h.scenes_ok, h.state_lt, h.start_eq, h.cap_le⟩
      · rw [if_neg hstop]
        refine inv_leafBacktrack cfg c start0 _ (inv_emitState cfg c start0 st h hlenL ?_)
        intro m hm hm0
        rw [hcap] at hm
        injection hm with hm
        subst hm
        push_neg at hstop
        have := hstop hm0
        omega
  · rw [if_neg hv]
    exact inv_leafBacktrack cfg c start0 st h

theorem inv_step (cfg : GenConfig) (c : Catalog) (s : Nat → Nat)
    (innerFuel start0 : Nat) (st : SearchSt) (h : Inv cfg c start0 st) :
    Inv cfg c start0 (step cfg c s innerFuel st) := by
  rw [step]
  rcases hstat : st.status with _ | _ | _ | _ | _
  all_goals dsimp only
  · by_cases hL : st.ancs.length < cfg.L
    · rw [if_pos hL]
      by_cases hW : st.cur.childIds.length < cfg.W
      · rw [if_pos hW]
        exact inv_expandStep cfg c s innerFuel start0 st h hL hW
      · rw [if_neg hW]
        exact inv_goUpStep cfg c start0 st h
    · rw [if_neg hL]
      exact inv_leafStep cfg c start0 st h hL
  all_goals exact h

theorem inv_runAux (cfg : GenConfig) (c : Catalog) (s : Nat → Nat)
    (innerFuel : Nat) :
    ∀ (fuel : Nat) (st : SearchSt) (start0 : Nat), Inv cfg c start0 st →
      Inv cfg c start0 (runAux cfg c s innerFuel fuel st) := by
  intro fuel
  induction fuel with
  | zero => intro st start0 h; exact h
  | succ n ih =>
    intro st start0 h
    rw [runAux]
    exact ih _ _ (inv_step cfg c s innerFuel start0 st h)

theorem inv_initSt (cfg : GenConfig) (c : Catalog) (start0 : Nat) :
    Inv cfg c start0 (initSt start0) := by
  refine ⟨List.nodup_nil, rfl, ?_, ?_, ?_, ?_, ?_, ?_, ?_⟩
  · show ([] : List Frame).length ≤ cfg.L
    simp
  · show ([] : List Nat).length ≤ cfg.W
    simp
  · intro f hf
    exact absurd hf (List.not_mem_nil f)
  · intro sc hsc
    exact absurd hsc (List.not_mem_nil sc)
  · intro i hi
    exact absurd hi (List.not_mem_nil i)
  · show start0 = start0 + ([] : List (List Nat)).length
    simp
  · intro n _ _
    exact le_max_left start0 n

/-- C1: every scene produced by the search (`_generate_scenes_idx`) has
length exactly `nb_objects_per_scene` and contains no duplicate id. -/
theorem generated_scenes_length_nodup (cfg : GenConfig) (c : Catalog)
    (s : Nat → Nat) (innerFuel fuel start0 : Nat) (sc : List Nat)
    (hsc : sc ∈ runScenes cfg c s innerFuel fuel start0) :
    sc.length = cfg.L ∧ sc.Nodup :=
  (inv_runAux cfg c s innerFuel fuel (initSt start0) start0
    (inv_initSt cfg c start0)).scenes_ok sc hsc

/-- Witness for C1: a concrete run on a two-sound catalog emits the scene
`[0]`, which has the configured length and no duplicates. -/
theorem generated_scenes_length_nodup_witness :
    ([0] : List Nat).length = 1 ∧ ([0] : List Nat).Nodup :=
  generated_scenes_length_nodup ⟨1, 1, ⟨0, 0, 0⟩, none⟩ ⟨["A", "B"]⟩
    (fun _ => 0) 3 5 0 [0] (by decide)

/-- C7: at every point of the traversal, every explored node of the zipper
(the current node and each of its ancestors) holds at most `nb_tree_branch`
children, a rejected draw still occupying one of the parent's slots. -/
theorem child_count_bounded (cfg : GenConfig) (c : Catalog) (s : Nat → Nat)
    (innerFuel fuel start0 : Nat) (f : Frame)
    (hf : f ∈ (runAux cfg c s innerFuel fuel (initSt start0)).cur ::
      (runAux cfg c s innerFuel fuel (initSt start0)).ancs) :
    f.childIds.length ≤ cfg.W := by
  have h := inv_runAux cfg c s innerFuel fuel (initSt start0) start0
    (inv_initSt cfg c start0)
  rcases List.mem_cons.mp hf with hm | hm
  · rw [hm]
    exact h.cur_w
  · exact h.ancs_w f hm

/-- Witness for C7: the root frame after a concrete run holds one child, at
most the width 1. -/
theorem child_count_bounded_witness :
    (Frame.mk (-1) [0]).childIds.length ≤ 1 :=
  child_count_bounded ⟨1, 1, ⟨0, 0, 0⟩, none⟩ ⟨["A", "B"]⟩ (fun _ => 0) 3 5 0
    ⟨-1, [0]⟩ (by decide)

/-- Counterexample for C5 as stated: with `nb_to_generate = 1` the run below
has already emitted 1 scene after two iterations and is still `running`; it
keeps descending and only halts (`doneCap`) two iterations later, upon
reaching the next valid leaf — not immediately when the count reached the
cap. -/
theorem cap_not_immediate_counterexample :
    (runAux ⟨1, 2, ⟨0, 0, 0⟩, some 1⟩ ⟨["A", "B"]⟩ (fun k => k) 3 2
      (initSt 0)).scenes.length = 1 ∧
    (runAux ⟨1, 2, ⟨0, 0, 0⟩, some 1⟩ ⟨["A", "B"]⟩ (fun k => k) 3 2
      (initSt 0)).status = Status.running ∧
    runAux ⟨1, 2, ⟨0, 0, 0⟩, some 1⟩ ⟨["A", "B"]⟩ (fun k => k) 3 3 (initSt 0) ≠
      runAux ⟨1, 2, ⟨0, 0, 0⟩, some 1⟩ ⟨["A", "B"]⟩ (fun k => k) 3 2 (initSt 0) ∧
    (runAux ⟨1, 2, ⟨0, 0, 0⟩, some 1⟩ ⟨["A", "B"]⟩ (fun k => k) 3 4
      (initSt 0)).status = Status.doneCap ∧
    (runAux ⟨1, 2, ⟨0, 0, 0⟩, some 1⟩ ⟨["A", "B"]⟩ (fun k => k) 3 4
      (initSt 0)).scenes.length = 1 :=
  ⟨by decide, by decide, by decide, by decide, by decide⟩

/-- C5 (amended): when a non-zero cap `nb_to_generate = n` is set, a run
started at `start_index = 0` returns at most `n` scenes; the engine however
halts on the cap only at the next valid leaf reached after the cap is met,
not at the moment of the `n`-th emission. -/
theorem cap_bounds_scenes (cfg : GenConfig) (c : Catalog) (s : Nat → Nat)
    (innerFuel fuel n : Nat) (hcap : cfg.cap = some n) (hn : n ≠ 0) :
    (runAux cfg c s innerFuel fuel (initSt 0)).scenes.length ≤ n := by
  have h := inv_runAux cfg c s innerFuel fuel (initSt 0) 0 (inv_initSt cfg c 0)
  have h1 := h.start_eq
  have h2 := h.cap_le n hcap hn
  have h3 : max 0 n = n := Nat.zero_max n
  omega

/-- Witness for the amended C5: the concrete capped run emits at most one
scene. -/
theorem cap_bounds_scenes_witness :
    (runAux ⟨1, 2, ⟨0, 0, 0⟩, some 1⟩ ⟨["A", "B"]⟩ (fun k => k) 3 4
      (initSt 0)).scenes.length ≤ 1 :=
  cap_bounds_scenes ⟨1, 2, ⟨0, 0, 0⟩, some 1⟩ ⟨["A", "B"]⟩ (fun k => k) 3 4 1
    rfl (by decide)

/-! Scenes are only ever produced through `validate_final`. -/

theorem expandStep_scenes (cfg : GenConfig) (c : Catalog) (s : Nat → Nat)
    (innerFuel : Nat) (st : SearchSt) :
    (expandStep cfg c s innerFuel st).scenes = st.scenes := by
  rw [expandStep]
  rcases hnext : nextIdFuel c s innerFuel st.rngPos st.state st.cur.childIds
    with _ | ⟨id, k⟩
  · rfl
  · dsimp only
    split <;> rfl

theorem goUpStep_scenes (st : SearchSt) : (goUpStep st).scenes = st.scenes := by
  obtain ⟨cur, ancs, state, scenes, startIdx, rngPos, status⟩ := st
  rw [goUpStep]
  cases ancs <;> rfl

theorem leafBacktrack_scenes (W : Nat) (st : SearchSt) :
    (leafBacktrack W st).scenes = st.scenes := by
  obtain ⟨cur, ancs, state, scenes, startIdx, rngPos, status⟩ := st
  rw [leafBacktrack]
  cases ancs with
  | nil => rfl
  | cons p rest =>
    cases state with
    | nil => rfl
    | cons x xs =>
      dsimp only
      rcases climb W rest p (x :: xs).dropLast with _ | _ | ⟨f2, ancs2, state2⟩ <;> rfl

theorem step_scenes_const (cfg : GenConfig) (c : Catalog) (s : Nat → Nat)
    (innerFuel start0 : Nat) (st : SearchSt)
    (hfam : c.nbFamilies < cfg.cst.min_nb_families)
    (hN : 0 < c.nbSounds)
    (h : Inv cfg c start0 st) :
    (step cfg c s innerFuel st).scenes = st.scenes := by
  rw [step]
  rcases hstat : st.status with _ | _ | _ | _ | _
  all_goals dsimp only
  · by_cases hL : st.ancs.length < cfg.L
    · rw [if_pos hL]
      by_cases hW : st.cur.childIds.length < cfg.W
      · rw [if_pos hW]
        exact expandStep_scenes cfg c s innerFuel st
      · rw [if_neg hW]
        exact goUpStep_scenes st
    · rw [if_neg hL]
      rw [leafStep]
      have hval : validate_final cfg.cst c st.state = false := by
        apply validate_final_false_of_families
        have hle := nonEmpty_le_nbFamilies c st.state
          (fun i hi => h.state_lt i hi hN)
        omega
      rw [hval]
      simp only [Bool.false_eq_true, if_false]
      exact leafBacktrack_scenes cfg.W st

theorem runAux_scenes_const (cfg : GenConfig) (c : Catalog) (s : Nat → Nat)
    (innerFuel : Nat)
    (hfam : c.nbFamilies < cfg.cst.min_nb_families)
    (hN : 0 < c.nbSounds) :
    ∀ (fuel : Nat) (st : SearchSt) (start0 : Nat), Inv cfg c start0 st →
      (runAux cfg c s innerFuel fuel st).scenes = st.scenes := by
  intro fuel
  induction fuel with
  | zero => intro st start0 _; rfl
  | succ n ih =>
    intro st start0 h
    rw [runAux, ih _ start0 (inv_step cfg c s innerFuel start0 st h),
      step_scenes_const cfg c s innerFuel start0 st hfam hN h]

/-- Counterexample for C9 as stated: no `InfeasibleConstraints` error exists
in the source. With `min_nb_families = 2` over a single-family catalog the
engine executes traversal steps (the very first iteration already changes the
loop state) and runs to normal completion (`doneRoot`) — no error before the
traversal. -/
theorem no_infeasible_check_counterexample :
    runAux ⟨2, 1, ⟨2, 0, 0⟩, none⟩ ⟨["A", "A"]⟩ (fun k => k) 4 1 (initSt 0) ≠
      initSt 0 ∧
    (runAux ⟨2, 1, ⟨2, 0, 0⟩, none⟩ ⟨["A", "A"]⟩ (fun k => k) 4 10
      (initSt 0)).status = Status.doneRoot :=
  ⟨by decide, by decide⟩

/-- C9 (amended): when `constraint_min_nb_families` exceeds the catalog's
number of distinct families no error is raised; the traversal runs and
returns zero scenes, because no state can ever satisfy the family constraint
of `validate_final`. -/
theorem infeasible_min_families_yields_no_scene (cfg : GenConfig) (c : Catalog)
    (s : Nat → Nat) (innerFuel fuel start0 : Nat)
    (hfam : c.nbFamilies < cfg.cst.min_nb_families)
    (hN : 0 < c.nbSounds) :
    runScenes cfg c s innerFuel fuel start0 = [] := by
  rw [runScenes, runAux_scenes_const cfg c s innerFuel hfam hN fuel
    (initSt start0) start0 (inv_initSt cfg c start0)]
  rfl

/-- Witness for the amended C9: the concrete infeasible run returns no scene. -/
theorem infeasible_min_families_yields_no_scene_witness :
    runScenes ⟨2, 1, ⟨2, 0, 0⟩, none⟩ ⟨["A", "A"]⟩ (fun k => k) 4 10 0 = [] :=
  infeasible_min_families_yields_no_scene ⟨2, 1, ⟨2, 0, 0⟩, none⟩ ⟨["A", "A"]⟩
    (fun k => k) 4 10 0 (by decide) (by decide)

/-! The train/val/test partitioner of `Scene_generator.generate`. -/

/-- Python `round` (banker's rounding — round half to even) on an exact
rational. -/
def pyRound (x : ℚ) : ℤ :=
  let f : ℤ := ⌊x⌋
  let frac : ℚ := x - f
  if frac < 1/2 then f
  else if 1/2 < frac then f + 1
  else if f % 2 = 0 then f else f + 1

/-- `nb_training = round(nb_scene * training_set_ratio)`. -/
def nbTraining (total : Nat) (ratio : ℚ) : ℤ := pyRound (total * ratio)

/-- `valid_and_test_ratio = (1.0 - training_set_ratio) / 2` and
`nb_valid = round(nb_scene * valid_and_test_ratio)`. -/
def nbValid (total : Nat) (ratio : ℚ) : ℤ :=
  pyRound (total * ((1 - ratio) / 2))

/-- `nb_test = nb_scene - nb_training - nb_valid`. -/
def nbTest (total : Nat) (ratio : ℚ) : ℤ :=
  total - nbTraining total ratio - nbValid total ratio

/-- The split label the `scene_count` loop of `generate` assigns to the scene
at position `i` of the (shuffled) scene list. -/
def splitOf (total : Nat) (ratio : ℚ) (i : Nat) : String :=
  if (i : ℤ) < nbTraining total ratio then "train"
  else if (i : ℤ) < nbTraining total ratio + nbValid total ratio then "val"
  else "test"

theorem pyRound_le (x : ℚ) : (pyRound x : ℚ) ≤ x + 1 / 2 := by
  have hf := Int.floor_le x
  have hf2 := Int.lt_floor_add_one x
  simp only [pyRound]
  split_ifs <;> push_cast <;> linarith

theorem le_pyRound (x : ℚ) : x - 1 / 2 ≤ (pyRound x : ℚ) := by
  have hf := Int.floor_le x
  have hf2 := Int.lt_floor_add_one x
  simp only [pyRound]
  split_ifs <;> push_cast <;> linarith

theorem pyRound_nonneg (x : ℚ) (h : 0 ≤ x) : 0 ≤ pyRound x := by
  have hf : 0 ≤ ⌊x⌋ := Int.floor_nonneg.mpr h
  simp only [pyRound]
  split_ifs <;> omega

theorem pyRound_of_le_half (x : ℚ) (h0 : 0 ≤ x) (h : x ≤ 1 / 2) :
    pyRound x = 0 := by
  have hf : ⌊x⌋ = 0 := by
    rw [Int.floor_eq_zero_iff]
    exact Set.mem_Ico.mpr ⟨h0, by linarith⟩
  rcases lt_or_eq_of_le h with hlt | heq
  · simp only [pyRound, hf, Int.cast_zero, sub_zero]
    rw [if_pos hlt]
  · simp only [pyRound, hf, Int.cast_zero, sub_zero, heq]
    norm_num

theorem countP_range_lt (n : Nat) (m : ℤ) :
    (List.range n).countP (fun (i : Nat) => decide ((i : ℤ) < m)) = min m.toNat n := by
  induction n with
  | zero => simp
  | succ k ih =>
    rw [List.range_succ, List.countP_append, ih]
    by_cases hk : (k : ℤ) < m
    · simp [List.countP_cons, hk]
      omega
    · simp [List.countP_cons, hk]
      omega

theorem countP_range_between (n : Nat) (a b : ℤ) (hab : a ≤ b) :
    (List.range n).countP
      (fun (i : Nat) => decide ((i : ℤ) < b) && ! decide ((i : ℤ) < a)) =
    min b.toNat n - min a.toNat n := by
  induction n with
  | zero => simp
  | succ k ih =>
    rw [List.range_succ, List.countP_append, ih]
    by_cases hka : (k : ℤ) < a
    · have hkb : (k : ℤ) < b := lt_of_lt_of_le hka hab
      simp [List.countP_cons, hka, hkb]
      omega
    · by_cases hkb : (k : ℤ) < b
      · simp [List.countP_cons, hka, hkb]
        omega
      · simp [List.countP_cons, hka, hkb]
        omega

theorem countP_range_not_lt (n : Nat) (b : ℤ) :
    (List.range n).countP (fun (i : Nat) => ! decide ((i : ℤ) < b)) =
    n - min b.toNat n := by
  induction n with
  | zero => simp
  | succ k ih =>
    rw [List.range_succ, List.countP_append, ih]
    by_cases hkb : (k : ℤ) < b
    · simp [List.countP_cons, hkb]
      omega
    · simp [List.countP_cons, hkb]
      omega

theorem splitOf_eq_train_iff (total : Nat) (r : ℚ) (i : Nat) :
    splitOf total r i = "train" ↔ (i : ℤ) < nbTraining total r := by
  rw [splitOf]
  split_ifs with h1 h2
  · exact iff_of_true rfl h1
  · exact iff_of_false (by decide) h1
  · exact iff_of_false (by decide) h1

theorem splitOf_eq_val_iff (total : Nat) (r : ℚ) (i : Nat) :
    splitOf total r i = "val" ↔
      ((i : ℤ) < nbTraining total r + nbValid total r ∧
        ¬ (i : ℤ) < nbTraining total r) := by
  rw [splitOf]
  split_ifs with h1 h2
  · exact iff_of_false (by decide) (fun hx => hx.2 h1)
  · exact iff_of_true rfl ⟨h2, h1⟩
  · exact iff_of_false (by decide) (fun hx => h2 hx.1)

theorem splitOf_eq_test_iff (total : Nat) (r : ℚ) (i : Nat)
    (hV : 0 ≤ nbValid total r) :
    splitOf total r i = "test" ↔
      ¬ (i : ℤ) < nbTraining total r + nbValid total r := by
  rw [splitOf]
  split_ifs with h1 h2
  · exact iff_of_false (by decide) (fun hx => hx (by omega))
  · exact iff_of_false (by decide) (fun hx => hx h2)
  · exact iff_of_true rfl h2

/-- C8: with `total` scenes and a training ratio `r ∈ [0, 1]`, the partition
loop of `generate` labels exactly `round(total*r)` scenes `train`, exactly
`round(total*(1-r)/2)` scenes `val` and the remaining
`total - n_train - n_val` scenes `test`; the three counts add up to `total`
exactly and every position receives exactly one of the three labels. -/
theorem split_counts (total : Nat) (r : ℚ) (h0 : 0 ≤ r) (h1 : r ≤ 1) :
    0 ≤ nbTest total r ∧
    (List.range total).countP (fun i => decide (splitOf total r i = "train")) =
      (nbTraining total r).toNat ∧
    (List.range total).countP (fun i => decide (splitOf total r i = "val")) =
      (nbValid total r).toNat ∧
    (List.range total).countP (fun i => decide (splitOf total r i = "test")) =
      (nbTest total r).toNat ∧
    (nbTraining total r).toNat + (nbValid total r).toNat + (nbTest total r).toNat
      = total ∧
    ∀ i : Nat, splitOf total r i = "train" ∨ splitOf total r i = "val" ∨
      splitOf total r i = "test" := by
  have hant : (0 : ℚ) ≤ (total : ℚ) * r :=
    mul_nonneg (Nat.cast_nonneg total) h0
  have hbnn : (0 : ℚ) ≤ (total : ℚ) * ((1 - r) / 2) :=
    mul_nonneg (Nat.cast_nonneg total) (by linarith)
  have hTnn : 0 ≤ nbTraining total r := pyRound_nonneg _ hant
  have hVnn : 0 ≤ nbValid total r := pyRound_nonneg _ hbnn
  have hkey : (total : ℚ) * r + 2 * ((total : ℚ) * ((1 - r) / 2)) = total := by
    ring
  have hTleQ : (nbTraining total r : ℚ) ≤ (total : ℚ) * r + 1 / 2 := pyRound_le _
  have hVleQ : (nbValid total r : ℚ) ≤ (total : ℚ) * ((1 - r) / 2) + 1 / 2 :=
    pyRound_le _
  have hra : (total : ℚ) * r ≤ total := by
    calc (total : ℚ) * r ≤ (total : ℚ) * 1 :=
          mul_le_mul_of_nonneg_left h1 (Nat.cast_nonneg total)
      _ = total := mul_one _
  have hTle : nbTraining total r ≤ (total : ℤ) := by
    have hq : (nbTraining total r : ℚ) < (total : ℚ) + 1 := by linarith
    have hz : (nbTraining total r : ℤ) < (total : ℤ) + 1 := by exact_mod_cast hq
    omega
  have hTestnn : 0 ≤ nbTest total r := by
    have hq : (-1 : ℚ) < ((nbTest total r : ℤ) : ℚ) := by
      have hcast : ((nbTest total r : ℤ) : ℚ) =
          (total : ℚ) - (nbTraining total r : ℚ) - (nbValid total r : ℚ) := by
        rw [nbTest]
        push_cast
        ring
      by_cases hb : (total : ℚ) * ((1 - r) / 2) ≤ 1 / 2
      · have hV0 : nbValid total r = 0 := pyRound_of_le_half _ hbnn hb
        rw [hcast, hV0]
        push_cast
        linarith
      · rw [hcast]
        linarith
    have hz : (-1 : ℤ) < nbTest total r := by exact_mod_cast hq
    omega
  have hTdef : nbTest total r = (total : ℤ) - nbTraining total r - nbValid total r :=
    rfl
  have hTVle : nbTraining total r + nbValid total r ≤ (total : ℤ) := by
    omega
  refine ⟨hTestnn, ?_, ?_, ?_, ?_, ?_⟩
  · have hc : (List.range total).countP
        (fun i => decide (splitOf total r i = "train")) =
        (List.range total).countP
          (fun (i : Nat) => decide ((i : ℤ) < nbTraining total r)) :=
      List.countP_congr (fun i _ => by
        simp only [decide_eq_true_eq]
        exact splitOf_eq_train_iff total r i)
    rw [hc, countP_range_lt total (nbTraining total r)]
    omega
  · have hc : (List.range total).countP
        (fun i => decide (splitOf total r i = "val")) =
        (List.range total).countP
          (fun (i : Nat) => decide ((i : ℤ) < nbTraining total r + nbValid total r) &&
            ! decide ((i : ℤ) < nbTraining total r)) :=
      List.countP_congr (fun i _ => by
        rcases splitOf_eq_val_iff total r i with ⟨hmp, hmpr⟩
        by_cases hx : splitOf total r i = "val"
        · obtain ⟨ha, hb⟩ := hmp hx
          simp [hx, ha, hb]
        · by_cases ha : (i : ℤ) < nbTraining total r + nbValid total r
          · by_cases hb : (i : ℤ) < nbTraining total r
            · simp [hx, ha, hb]
            · exact absurd (hmpr ⟨ha, hb⟩) hx
          · simp [hx, ha])
    rw [hc, countP_range_between total (nbTraining total r)
      (nbTraining total r + nbValid total r) (by omega)]
    omega
  · have hc : (List.range total).countP
        (fun i => decide (splitOf total r i = "test")) =
        (List.range total).countP
          (fun (i : Nat) => ! decide ((i : ℤ) < nbTraining total r + nbValid total r)) :=
      List.countP_congr (fun i _ => by
        have htest := splitOf_eq_test_iff total r i hVnn
        by_cases ha : (i : ℤ) < nbTraining total r + nbValid total r
        · have hx : splitOf total r i ≠ "test" := fun hx => (htest.mp hx) ha
          simp [hx, ha]
        · have hx : splitOf total r i = "test" := htest.mpr ha
          simp [hx, ha])
    have hmin : min (nbTraining total r + nbValid total r).toNat total =
        (nbTraining total r + nbValid total r).toNat :=
      min_eq_left (by omega)
    rw [hc, countP_range_not_lt total (nbTraining total r + nbValid total r), hmin]
    omega
  · omega
  · intro i
    rw [splitOf]
    split_ifs
    · exact Or.inl rfl
    · exact Or.inr (Or.inl rfl)
    · exact Or.inr (Or.inr rfl)

/-- Witness for C8 at `total = 5`, `r = 7/10`: the ratio is admissible, the
three counts are 4, 1 and 0, and they cover the five scenes exactly. -/
theorem split_counts_witness :
    (0 : ℚ) ≤ 7 / 10 ∧ (7 / 10 : ℚ) ≤ 1 ∧
    (nbTraining 5 (7 / 10)).toNat = 4 ∧
    (nbValid 5 (7 / 10)).toNat = 1 ∧
    (nbTest 5 (7 / 10)).toNat = 0 ∧
    (nbTraining 5 (7 / 10)).toNat + (nbValid 5 (7 / 10)).toNat +
      (nbTest 5 (7 / 10)).toNat = 5 :=
  ⟨by norm_num, by norm_num,
   by norm_num [nbTraining, pyRound]; decide,
   by norm_num [nbValid, pyRound],
   by norm_num [nbTest, nbTraining, nbValid, pyRound],
   (split_counts 5 (7 / 10) (by norm_num) (by norm_num)).2.2.2.2.1⟩

/-- C6: determinism — with an identical seed (hence identical draw stream),
an identical catalog and identical configuration, two runs of the generator
produce the same id sequences, so after any reordering (the seeded shuffle of
`generate` only permutes the list) the unordered multisets of generated
id-sequences coincide. -/
theorem generation_deterministic (cfg1 cfg2 : GenConfig) (c1 c2 : Catalog)
    (s1 s2 : Nat → Nat) (innerFuel fuel start0 : Nat)
    (out1 out2 : List (List Nat))
    (hcfg : cfg1 = cfg2) (hc : c1 = c2) (hs : ∀ k, s1 k = s2 k)
    (h1 : out1.Perm (runScenes cfg1 c1 s1 innerFuel fuel start0))
    (h2 : out2.Perm (runScenes cfg2 c2 s2 innerFuel fuel start0)) :
    (out1 : Multiset (List Nat)) = (out2 : Multiset (List Nat)) := by
  subst hcfg
  subst hc
  have hss : s1 = s2 := funext hs
  subst hss
  exact Multiset.coe_eq_coe.mpr (h1.trans h2.symm)

/-- Witness for C6: two identical concrete runs yield the same multiset. -/
theorem generation_deterministic_witness :
    ((runScenes ⟨1, 1, ⟨0, 0, 0⟩, none⟩ ⟨["A", "B"]⟩ (fun _ => 0) 3 5 0 :
        List (List Nat)) : Multiset (List Nat)) =
      ((runScenes ⟨1, 1, ⟨0, 0, 0⟩, none⟩ ⟨["A", "B"]⟩ (fun _ => 0) 3 5 0 :
        List (List Nat)) : Multiset (List Nat)) :=
  generation_deterministic ⟨1, 1, ⟨0, 0, 0⟩, none⟩ ⟨1, 1, ⟨0, 0, 0⟩, none⟩
    ⟨["A", "B"]⟩ ⟨["A", "B"]⟩ (fun _ => 0) (fun _ => 0) 3 5 0 _ _
    rfl rfl (fun _ => rfl) (List.Perm.refl _) (List.Perm.refl _)

end CLEAR
